import Mathlib

/-
  Verification development for the es6ify global-to-module resolution engine
  (src/index.js, second revision: the one with combine / findCircularities).

  Shallow embedding conventions:
  - JS `Map` objects become insertion-ordered association lists
    `List (key × value)` with unique keys; `Map.set` updates in place when the
    key is present and appends otherwise, `Map.delete` filters the key out.
  - JS `Set` objects become insertion-ordered `List` values kept duplicate
    free by `jsSetAdd`.
  - Machine strings are Lean `String`; the source files handled by the tool
    are ASCII, so string offsets used by the partitioner are modelled on
    `List Char`.
  - The acorn parser and acorn-globals extractor are external collaborators;
    their outputs (statement start offsets, free-identifier occurrence nodes)
    are inputs of the embedded functions.
-/

namespace Es6ify

/-- JS `Set.add` on an insertion-ordered set modelled as a list:
append when absent, keep position when present. -/
def jsSetAdd {α} [DecidableEq α] (s : List α) (x : α) : List α :=
  if x ∈ s then s else s ++ [x]

/-- JS `Set.delete`: remove the element, keeping the order of the rest. -/
def jsSetDelete {α} [DecidableEq α] (s : List α) (x : α) : List α :=
  s.filter (fun y => decide (y ≠ x))

/-- `replaceInSet` from src/index.js: when `oldValue` is present, delete it
and add `newValue` (which lands at the end unless already present). -/
def replaceInSet {α} [DecidableEq α] (s : List α) (oldValue newValue : α) : List α :=
  if oldValue ∈ s then jsSetAdd (jsSetDelete s oldValue) newValue else s

/-- `new Set(list)`: de-duplicate keeping first occurrences. -/
def jsDedup {α} [DecidableEq α] (l : List α) : List α := l.foldl jsSetAdd []

/-- `Map.get`: first (unique) binding of a key in an association list. -/
def lookupKey {α β} [DecidableEq α] : List (α × β) → α → Option β
  | [], _ => none
  | p :: t, k => if p.1 = k then some p.2 else lookupKey t k

/-- JS `Map.set`: update the binding in place when the key exists
(keys are unique, so the first binding is the binding), append a new
binding at the end otherwise. -/
def jsMapSet {α β} [DecidableEq α] : List (α × β) → α → β → List (α × β)
  | [], k, v => [(k, v)]
  | p :: t, k, v => if p.1 = k then (k, v) :: t else p :: jsMapSet t k v

/-- JS `Map.delete`: drop the binding of a key. -/
def jsMapDelete {α β} [DecidableEq α] (m : List (α × β)) (k : α) : List (α × β) :=
  m.filter (fun p => decide (p.1 ≠ k))

/-- SymbolEntry from src/index.js: where a global name is defined,
assigned and referenced.  `definition` is unset until a top-level
declaration of the name is scanned. -/
structure SymbolEntry where
  definition : Option String
  assignments : List String
  references : List String
deriving DecidableEq

/-- The two mutable tables of the pipeline: the symbol table `symbols`
and the file table `files` (file key to current source text). -/
structure PState where
  symbols : List (String × SymbolEntry)
  files : List (String × String)
deriving DecidableEq

/-- The surviving file keys, in insertion order. -/
def fileKeys (st : PState) : List String := st.files.map Prod.fst

/-- The per-entry effect of `combineFileEntries(first, second)` on one
SymbolEntry: remap `second` to `first` in both sets and in `definition`. -/
def mergeEntry (first second : String) (e : SymbolEntry) : SymbolEntry :=
  { assignments := replaceInSet e.assignments second first
    references := replaceInSet e.references second first
    definition := if e.definition = some second then some first else e.definition }

/-- `combineFileEntries` (src/index.js:587-604): concatenate the texts under
the surviving key `first`, delete the retired key `second` from the file
table, and remap `second` to `first` across the whole symbol table.
A missing file text concatenates as the string "undefined", as the JS
string coercion of `files.get` on an absent key would. -/
def combineFileEntries (st : PState) (first second : String) : PState :=
  { files :=
      jsMapDelete
        (jsMapSet st.files first
          (((lookupKey st.files first).getD "undefined") ++
            ((lookupKey st.files second).getD "undefined")))
        second
    symbols := st.symbols.map (fun p => (p.1, mergeEntry first second p.2)) }

/-- One iteration of the `combineFiles` loop (src/index.js:568-579) for the
symbol called `name`: snapshot the files of `assignments` other than the
defining file and merge each of them into the defining file.  `combineFiles`
runs after `removeGlobalSymbols`, so every entry it visits has a definition;
the `none` branch is unreachable in the pipeline and modelled as a no-op. -/
def processSymbol (st : PState) (name : String) : PState :=
  match lookupKey st.symbols name with
  | none => st
  | some e =>
    match e.definition with
    | none => st
    | some d =>
      (jsDedup (e.assignments.filter (fun f => decide (f ≠ d)))).foldl
        (fun st2 f => combineFileEntries st2 d f) st

/-- `combineFiles` (src/index.js:568-579): visit every symbol in table
order (the key set never changes during the pass, values are re-read at
visit time) and merge away its cross-file assignments. -/
def combineFiles (st : PState) : PState :=
  (st.symbols.map Prod.fst).foldl processSymbol st

/-- One step of the `groupBy` used by `createImports`: append the symbol
name to the group of its defining file, creating the group at the end on
first sight. -/
def addToGroup (gs : List (Option String × List String)) (k : Option String) (v : String) :
    List (Option String × List String) :=
  if k ∈ gs.map Prod.fst then gs.map (fun g => if g.1 = k then (g.1, g.2 ++ [v]) else g)
  else gs ++ [(k, [v])]

/-- `createImports` (src/index.js:612-622): the symbols used by `path` but
defined elsewhere, grouped by defining file in first-seen order. -/
def createImports (st : PState) (path : String) : List (Option String × List String) :=
  (st.symbols.filter
      (fun p => decide (p.2.definition ≠ some path ∧ path ∈ p.2.references))).foldl
    (fun gs p => addToGroup gs p.2.definition p.1) []

/-- The keys of `createImports`: the files `path` would import from. -/
def importOwners (st : PState) (path : String) : List (Option String) :=
  (createImports st path).map Prod.fst

/-- Inner loop of `findCircularities` (src/index.js:636-647): `j` runs from
`keys.length - 1` down to `i + 1`; the import list `imps` of the outer file
is the one computed before the inner loop and is never refreshed. -/
def fcInner (keys : List String) (key : String) (imps : List (Option String)) (i : Nat) :
    Nat → PState → PState
  | 0, st => st
  | j + 1, st =>
    if j + 1 ≤ i then st
    else
      let key2 := keys.getD (j + 1) ""
      let backImps := importOwners st key2
      let st2 :=
        if some key2 ∈ imps ∧ some key ∈ backImps then combineFileEntries st key key2 else st
      fcInner keys key imps i j st2

/-- Outer loop of `findCircularities` (src/index.js:632-648): `i` runs from
`keys.length - 1` down to `0` over the snapshot of file keys. -/
def fcOuter (keys : List String) : Nat → PState → PState
  | 0, st => st
  | n + 1, st =>
    let key := keys.getD n ""
    let imps := importOwners st key
    fcOuter keys n (fcInner keys key imps n (keys.length - 1) st)

/-- `findCircularities` (src/index.js:628-650): one quadratic sweep over the
snapshot of file keys, merging the later-inserted file of each detected
mutual-import pair into the earlier-inserted one. -/
def findCircularities (st : PState) : PState :=
  fcOuter (st.files.map Prod.fst) (st.files.map Prod.fst).length st

/-- `removeGlobalSymbols` (src/index.js:547-559): purge every SymbolEntry
whose `definition` is unset. -/
def removeGlobalSymbols (st : PState) : PState :=
  { st with symbols := st.symbols.filter (fun p => p.2.definition.isSome) }

/-- The symbol names an emitted file at `path` would import (the names
listed by the import statements built from `createImports`). -/
def importedSymbols (st : PState) (path : String) : List String :=
  (st.symbols.filter
      (fun p => decide (p.2.definition ≠ some path ∧ path ∈ p.2.references))).map Prod.fst

/-- A free-identifier occurrence as acorn-globals reports it, reduced to
what `isAssignmentExpression` (src/index.js:538-542) inspects: whether the
syntactic parent is an AssignmentExpression and whether the occurrence is
its left operand. -/
structure OccNode where
  parentIsAssignment : Bool
  isAssignmentLeft : Bool
deriving DecidableEq

/-- `isAssignmentExpression` (src/index.js:538-542). -/
def isAssignmentExpressionNode (n : OccNode) : Bool :=
  n.parentIsAssignment && n.isAssignmentLeft

/-- The classification step of the scanner (src/index.js:512-520): if any
occurrence of the name in this partition is an assignment target, record
the file key in `assignments`, otherwise in `references`. -/
def recordSymbolUse (e : SymbolEntry) (destName : String) (nodes : List OccNode) : SymbolEntry :=
  if nodes.any isAssignmentExpressionNode then
    { e with assignments := jsSetAdd e.assignments destName }
  else
    { e with references := jsSetAdd e.references destName }

/-- A fresh SymbolEntry as `createSymbolEntry` builds it. -/
def emptyEntry : SymbolEntry := ⟨none, [], []⟩

/-- `createSymbolEntry` (src/index.js:532-536). -/
def createSymbolEntryTable (symbols : List (String × SymbolEntry)) (sym : String) :
    List (String × SymbolEntry) :=
  if sym ∈ symbols.map Prod.fst then symbols else symbols ++ [(sym, emptyEntry)]

/-- The conflict diagnostic of `addSymbolDefinition`: the console.error call
logs the symbol name, the path of the file being scanned, and the value of
the expression `symbols[symbol]`. -/
structure ConflictLog where
  name : String
  path : String
  previous : Option String
deriving DecidableEq

/-- The value of the JS expression `symbols[symbol]`: bracket access on a
`Map` object reads an object property, not a map entry, so for identifier
keys it evaluates to `undefined` regardless of the stored entries. -/
def jsMapBracketAccess (_m : List (String × SymbolEntry)) (_k : String) : Option String := none

/-- `addSymbolDefinition` (src/index.js:524-530): create the entry when
missing, emit the conflict diagnostic when the entry already has a
definition, then overwrite `definition` with the current partition key. -/
def addSymbolDefinition (symbols : List (String × SymbolEntry)) (path destName sym : String) :
    List (String × SymbolEntry) × Option ConflictLog :=
  let tbl := createSymbolEntryTable symbols sym
  let e := (lookupKey tbl sym).getD emptyEntry
  let err := if e.definition.isSome then some ⟨sym, path, jsMapBracketAccess tbl sym⟩ else none
  (jsMapSet tbl sym { e with definition := some destName }, err)

/-- The partition-piece computation of `oneFile` (src/index.js:469-482),
verbatim: the callback given to `partitionAt` declares `let lastSize = 0`
inside its own body, so the running boundary is re-initialised to 0 on
every invocation; the callback is not invoked for statement index 0
(`!i` short-circuits); each triggering statement pushes
`file.slice(0, start)` and resets `remainingPiece` to `file.slice(start)`,
and the final `remainingPiece` is pushed after the loop. -/
def buggyScan (file : List Char) (maxSize : Nat) :
    Nat → List Nat → List (List Char) → List Char → List (List Char)
  | _, [], pieces, remaining => pieces ++ [remaining]
  | i, s :: rest, pieces, remaining =>
    if i ≠ 0 ∧ maxSize ≤ s then
      buggyScan file maxSize (i + 1) rest (pieces ++ [file.take s]) (file.drop s)
    else
      buggyScan file maxSize (i + 1) rest pieces remaining

/-- The list of partition body texts produced for one input file, given the
start offsets of its top-level statements and the configured `maxSize`. -/
def partitionPieces (file : List Char) (starts : List Nat) (maxSize : Nat) : List (List Char) :=
  buggyScan file maxSize 0 starts [] file

/-- The module-level mutable state of src/index.js (lines 364-366): the
name registry and the rename counter live outside the exported function. -/
structure RenameState where
  fileNames : List String
  dupCount : Nat
deriving DecidableEq

/-- The module state of a freshly loaded process. -/
def initialRenameState : RenameState := ⟨[], 0⟩

/-- Split a character list at every occurrence of a separator character
(the splitting primitive behind the `path.split(Path.sep)` and
`Path.parse` collaborator calls, given structurally so it evaluates). -/
def splitOnChar (sep : Char) : List Char → List (List Char)
  | [] => [[]]
  | c :: t =>
    let r := splitOnChar sep t
    if c = sep then [] :: r else (c :: r.headD []) :: r.tail

/-- `split` on a one-character separator, as a string function. -/
def strSplit (s : String) (sep : Char) : List String :=
  (splitOnChar sep s.toList).map (fun l => ⟨l⟩)

/-- Join strings with a separator. -/
def joinWith (sep : String) : List String → String
  | [] => ""
  | [x] => x
  | x :: t => x ++ sep ++ joinWith sep t

/-- Lower-casing as used on file stems (ASCII inputs). -/
def jsToLower (s : String) : String := ⟨s.toList.map Char.toLower⟩

/-- Node `Path.dirname` for relative slash-separated paths. -/
def jsDirname (p : String) : String :=
  let parts := strSplit p '/'
  if parts.length ≤ 1 then "." else joinWith "/" parts.dropLast

/-- Node `Path.basename`. -/
def jsBasename (p : String) : String := (strSplit p '/').reverse.headD p

/-- Does the string end in `.js`? -/
def endsWithJs (s : String) : Bool :=
  match s.toList.reverse with
  | 's' :: 'j' :: '.' :: _ => true
  | _ => false

/-- Drop the last three characters. -/
def dropLast3 (s : String) : String := ⟨s.toList.take (s.toList.length - 3)⟩

/-- `Path.basename(x, ".js")`: also strip a trailing ".js". -/
def stripSuffixJs (b : String) : String := if endsWithJs b then dropLast3 b else b

/-- Split a base name into Node `Path.parse` name and ext components. -/
def parseNameExt (b : String) : String × String :=
  let parts := strSplit b '.'
  if parts.length ≤ 1 then (b, "")
  else (joinWith "." parts.dropLast, "." ++ parts.reverse.headD "")

/-- `modifyFilename` (src/index.js:336-343): rewrite the stem of the file
name, keeping directory and extension. -/
def modifyFilename (path : String) (fn : String → String) : String :=
  let dirParts := strSplit path '/'
  let dir := if dirParts.length ≤ 1 then "" else joinWith "/" dirParts.dropLast
  let base := dirParts.reverse.headD path
  let ne := parseNameExt base
  (if dir = "" then "" else dir ++ "/") ++ fn ne.1 ++ ne.2

/-- `String(dupCount).padStart(3, "0")`. -/
def pad3 (n : Nat) : String :=
  let s := toString n
  if s.length < 3 then String.join (List.replicate (3 - s.length) "0") ++ s else s

/-- The pre-population of the name registry (src/index.js:408-417): every
directory segment of every input path is added to `fileNames`. -/
def prepopulateSegments (rs : RenameState) (paths : List String) : RenameState :=
  { rs with
    fileNames :=
      paths.foldl
        (fun acc p =>
          ((strSplit (jsDirname p) '/').filter (fun s => decide (s ≠ ""))).foldl jsSetAdd acc)
        rs.fileNames }

/-- The duplicate-rename decision of `oneFile` (src/index.js:436-452) for
one input path: rename when the lower-cased stem is already registered and
`renameDups` is on, then register the (possibly new) stem. -/
def processOnePath (renameDups : Bool) (rs : RenameState) (path : String) :
    String × RenameState :=
  let relativePath := path
  let stem := jsToLower (stripSuffixJs (jsBasename relativePath))
  if stem ∈ rs.fileNames ∧ renameDups = true then
    let newRel := modifyFilename relativePath (fun nm => nm ++ pad3 rs.dupCount)
    let newStem := jsToLower (stripSuffixJs (jsBasename newRel))
    (newRel, { fileNames := jsSetAdd rs.fileNames newStem, dupCount := rs.dupCount + 1 })
  else
    (relativePath, { rs with fileNames := jsSetAdd rs.fileNames stem })

/-- One invocation of es6ify restricted to its file-key decisions: the
registry is pre-populated with directory segments, then each input path is
processed in order.  Returns the emitted file keys and the module state
left behind for a later invocation in the same process. -/
def runRename (rs : RenameState) (renameDups : Bool) (paths : List String) :
    List String × RenameState :=
  let rs1 := prepopulateSegments rs paths
  paths.foldl
    (fun acc p =>
      let r := processOnePath renameDups acc.2 p
      (acc.1 ++ [r.1], r.2))
    (([] : List String), rs1)

/-- `depth` (src/index.js:346). -/
def depthOfPath (path : String) : Nat := (strSplit path '/').length - 1

/-- `"../".repeat(n)`. -/
def repeatStr (s : String) (n : Nat) : String := String.join (List.replicate n s)

/-- Node `Path.join` for the simple relative paths the tool manipulates
(path handling is an external collaborator). -/
def jsJoin (a b : String) : String :=
  if a = "" then b else if b = "" then a else a ++ "/" ++ b

/-- `filenameComment` (src/index.js:700-702): `\W` characters of the path
are replaced by underscores. -/
def filenameComment (path : String) : String :=
  "function " ++ path.map (fun c => if c.isAlphanum ∨ c = '_' then c else '_') ++
    "() \x7b return \"This is the path\"; \x7d\n"

/-- The import block written at the top of an emitted file
(src/index.js:663-671): one statement per defining file, `Path.normalize`
modelled as the identity on the already-normal paths involved.  A group
keyed by an unset definition renders as the string "undefined", as the JS
template literal would. -/
def importsBlock (st : PState) (path : String) : String :=
  String.join
    ((createImports st path).map (fun g =>
      "import \x7b" ++ String.intercalate ", " g.2 ++ "\x7d from \x27" ++
        jsJoin (repeatStr "../" (depthOfPath path)) (g.1.getD "undefined") ++ "\x27;\n")) ++ "\n"

/-- The export statement appended to an emitted file (src/index.js:673-679). -/
def exportBlock (st : PState) (path : String) : String :=
  let defined := (st.symbols.filter (fun p => decide (p.2.definition = some path))).map Prod.fst
  if defined.length = 0 then ""
  else "\n\nexport \x7b" ++ String.intercalate ", " defined ++ "\x7d;\n"

/-- The full text written for one surviving file (src/index.js:681-682). -/
def destData (filenameOpt : Bool) (st : PState) (path data : String) : String :=
  (if filenameOpt then filenameComment path else "") ++
    importsBlock st path ++ data ++ exportBlock st path

/-- One aggregator import statement (src/index.js:693). -/
def aggregatorImportLine (f : String) : String := "import \x27./" ++ f ++ "\x27;\n"

/-- The content of the aggregator file written by `writeIndexJs`
(src/index.js:691-698). -/
def indexJsContent (st : PState) : String :=
  "// Automatically generated by es6ify\n\n" ++
    String.join (st.files.map (fun p => aggregatorImportLine p.1))

/-- A filesystem effect of the write stage. -/
inductive FsAction where
  | rmdirRecursive : String → FsAction
  | mkdirRecursive : String → FsAction
  | writeFile : String → String → FsAction
deriving DecidableEq

/-- The ordered effect trace of `write` (src/index.js:653-698): first
`fs.rmdir(dest, recursive)`, then per surviving file a recursive mkdir and
a file write, then the aggregator write.  `write` is invoked only when the
`dest` option is set (src/index.js:405). -/
def writeTrace (dest indexjs : String) (filenameOpt : Bool) (st : PState) : List FsAction :=
  FsAction.rmdirRecursive dest ::
    ((st.files.map (fun p =>
        [FsAction.mkdirRecursive (jsDirname (jsJoin dest p.1)),
         FsAction.writeFile (jsJoin dest p.1) (destData filenameOpt st p.1 p.2)])).flatten ++
      [FsAction.writeFile (jsJoin dest indexjs) (indexJsContent st)])

/-- The effect of the whole `combineFileEntries` sweep of one
`processSymbol` call on a single SymbolEntry: merge each file of `fs`
into the defining file `d`, in order. -/
def entryFold (d : String) (fs : List String) (e : SymbolEntry) : SymbolEntry :=
  fs.foldl (fun e2 f => mergeEntry d f e2) e

/-- A SymbolEntry with no cross-file assignment: every file of
`assignments` is the defining file itself. -/
def entryClean (e : SymbolEntry) : Prop := ∀ f ∈ e.assignments, e.definition = some f

/-- Symbol and file tables as scanning `a.js` (text `var x = 1;`) and then
`b.js` (text `x = 2;`) leaves them: `x` is declared in a.js and assigned
in b.js, so the Merger must fold b.js into a.js. -/
def exampleCombineState : PState :=
  ⟨[("x", ⟨some "a.js", ["b.js"], []⟩)],
   [("a.js", "var x = 1;\n"), ("b.js", "x = 2;\n")]⟩

/-- Tables as scanning f.js (declares `p` and `q`, calls `r`), then g.js
(declares `s`, calls `q`), then h.js (declares `r`, calls `p` and `s`)
leaves them: f.js and h.js mutually import, h.js also imports g.js, and
g.js imports f.js. -/
def exampleCycleState : PState :=
  ⟨[("p", ⟨some "f.js", [], ["h.js"]⟩),
    ("q", ⟨some "f.js", [], ["g.js"]⟩),
    ("r", ⟨some "h.js", [], ["f.js"]⟩),
    ("s", ⟨some "g.js", [], ["h.js"]⟩)],
   [("f.js", "var p = 1;\nvar q = 1;\nr();\n"),
    ("g.js", "var s = 1;\nq();\n"),
    ("h.js", "var r = 1;\np();\ns();\n")]⟩

/-- A one-file input whose text contributes no global symbol at all
(for instance a file holding only a comment): the symbol table is empty,
so no file imports from any other. -/
def exampleNoCycleState : PState := ⟨[], [("f.js", "// nothing here\n")]⟩

/-- Tables after scanning an input in which `window` is referenced but
never declared anywhere, while `x` is declared in lib.js and referenced
in app.js. -/
def exampleScanState : PState :=
  ⟨[("window", ⟨none, [], ["app.js"]⟩), ("x", ⟨some "lib.js", [], ["app.js"]⟩)],
   [("lib.js", "var x = 1;\n"), ("app.js", "x;\nwindow.alert(x);\n")]⟩

/-- A three-file table with an empty symbol table, for the aggregator
claims. -/
def exampleFilesState : PState :=
  ⟨[], [("a.js", "AA"), ("b.js", "BB"), ("c.js", "CC")]⟩

/-! Basic facts about the JS `Set` and `Map` primitives. -/

theorem mem_jsSetAdd {α} [DecidableEq α] {s : List α} {x y : α} :
    y ∈ jsSetAdd s x ↔ y ∈ s ∨ y = x := by
  unfold jsSetAdd
  split
  · rename_i h
    constructor
    · exact Or.inl
    · rintro (h1 | rfl)
      · exact h1
      · exact h
  · simp

theorem self_mem_jsSetAdd {α} [DecidableEq α] (s : List α) (x : α) : x ∈ jsSetAdd s x :=
  mem_jsSetAdd.mpr (Or.inr rfl)

theorem mem_jsSetDelete {α} [DecidableEq α] {s : List α} {x y : α} :
    y ∈ jsSetDelete s x ↔ y ∈ s ∧ y ≠ x := by
  unfold jsSetDelete
  simp [List.mem_filter]

theorem mem_replaceInSet {α} [DecidableEq α] {s : List α} {oldValue newValue y : α} :
    y ∈ replaceInSet s oldValue newValue → y = newValue ∨ (y ∈ s ∧ y ≠ oldValue) := by
  unfold replaceInSet
  split
  · intro h
    rcases mem_jsSetAdd.mp h with h1 | h1
    · exact Or.inr (mem_jsSetDelete.mp h1)
    · exact Or.inl h1
  · intro h
    rename_i hns
    exact Or.inr ⟨h, fun hy => hns (hy ▸ h)⟩

theorem mem_replaceInSet_of_mem {α} [DecidableEq α] {s : List α} {oldValue newValue y : α}
    (hy : y ∈ s) (hne : y ≠ oldValue) : y ∈ replaceInSet s oldValue newValue := by
  unfold replaceInSet
  split
  · exact mem_jsSetAdd.mpr (Or.inl (mem_jsSetDelete.mpr ⟨hy, hne⟩))
  · exact hy

theorem newValue_mem_replaceInSet {α} [DecidableEq α] {s : List α} {oldValue newValue : α}
    (h : oldValue ∈ s) : newValue ∈ replaceInSet s oldValue newValue := by
  unfold replaceInSet
  rw [if_pos h]
  exact self_mem_jsSetAdd _ _

theorem oldValue_not_mem_replaceInSet {α} [DecidableEq α] {s : List α} {oldValue newValue : α}
    (hne : oldValue ≠ newValue) : oldValue ∉ replaceInSet s oldValue newValue := by
  intro h
  rcases mem_replaceInSet h with h1 | h1
  · exact hne h1
  · exact h1.2 rfl

theorem mem_foldl_jsSetAdd {α} [DecidableEq α] (l : List α) :
    ∀ (acc : List α) (y : α), y ∈ l.foldl jsSetAdd acc ↔ y ∈ acc ∨ y ∈ l := by
  induction l with
  | nil => simp
  | cons a t ih =>
    intro acc y
    rw [List.foldl_cons, ih, mem_jsSetAdd]
    simp [or_assoc]

theorem mem_jsDedup {α} [DecidableEq α] {l : List α} {y : α} : y ∈ jsDedup l ↔ y ∈ l := by
  unfold jsDedup
  rw [mem_foldl_jsSetAdd]
  simp

theorem lookupKey_eq_none {α β} [DecidableEq α] {m : List (α × β)} {k : α} :
    lookupKey m k = none ↔ k ∉ m.map Prod.fst := by
  induction m with
  | nil => simp [lookupKey]
  | cons p t ih =>
    unfold lookupKey
    by_cases hp : p.1 = k
    · rw [if_pos hp]
      constructor
      · intro h; cases h
      · intro h
        exfalso
        apply h
        rw [List.map_cons, List.mem_cons]
        exact Or.inl hp.symm
    · rw [if_neg hp, ih]
      constructor
      · intro h hmem
        rw [List.map_cons, List.mem_cons] at hmem
        rcases hmem with h1 | h1
        · exact hp h1.symm
        · exact h h1
      · intro h hmem
        apply h
        rw [List.map_cons, List.mem_cons]
        exact Or.inr hmem

theorem lookupKey_mem {α β} [DecidableEq α] {m : List (α × β)} {k : α} {v : β}
    (h : lookupKey m k = some v) : (k, v) ∈ m := by
  induction m with
  | nil => cases h
  | cons p t ih =>
    unfold lookupKey at h
    split at h
    · rename_i hp
      injection h with h1
      subst h1
      rw [← hp]
      exact List.mem_cons_self _ _
    · exact List.mem_cons_of_mem _ (ih h)

theorem mem_keys_of_lookupKey {α β} [DecidableEq α] {m : List (α × β)} {k : α} {v : β}
    (h : lookupKey m k = some v) : k ∈ m.map Prod.fst :=
  List.mem_map.mpr ⟨(k, v), lookupKey_mem h, rfl⟩

theorem lookupKey_of_mem_nodup {α β} [DecidableEq α] {m : List (α × β)} {k : α} {v : β}
    (hnd : (m.map Prod.fst).Nodup) (h : (k, v) ∈ m) : lookupKey m k = some v := by
  induction m with
  | nil => cases h
  | cons p t ih =>
    rcases List.mem_cons.mp h with rfl | hmem
    · simp [lookupKey]
    · have hk : p.1 ≠ k := by
        intro hpk
        have : k ∈ t.map Prod.fst := List.mem_map.mpr ⟨(k, v), hmem, rfl⟩
        rw [List.map_cons, List.nodup_cons, hpk] at hnd
        exact hnd.1 this
      unfold lookupKey
      rw [if_neg hk]
      exact ih (List.nodup_cons.mp (by rw [List.map_cons] at hnd; exact hnd)).2 hmem

theorem lookupKey_map {α β γ} [DecidableEq α] (g : β → γ) (m : List (α × β)) (k : α) :
    lookupKey (m.map (fun p => (p.1, g p.2))) k = (lookupKey m k).map g := by
  induction m with
  | nil => rfl
  | cons p t ih =>
    by_cases hp : p.1 = k
    · simp [lookupKey, hp]
    · simp [lookupKey, hp, ih]

theorem keys_jsMapSet_of_mem {α β} [DecidableEq α] {m : List (α × β)} {k : α} (v : β)
    (h : k ∈ m.map Prod.fst) : (jsMapSet m k v).map Prod.fst = m.map Prod.fst := by
  induction m with
  | nil => cases h
  | cons p t ih =>
    unfold jsMapSet
    by_cases hp : p.1 = k
    · rw [if_pos hp, List.map_cons, List.map_cons, hp]
    · rw [if_neg hp, List.map_cons, List.map_cons]
      congr 1
      apply ih
      rw [List.map_cons, List.mem_cons] at h
      rcases h with h1 | h1
      · exact absurd h1.symm hp
      · exact h1

theorem keys_jsMapDelete {α β} [DecidableEq α] (m : List (α × β)) (k : α) :
    (jsMapDelete m k).map Prod.fst = (m.map Prod.fst).filter (fun x => decide (x ≠ k)) := by
  induction m with
  | nil => rfl
  | cons p t ih =>
    by_cases hp : p.1 = k
    · simp [jsMapDelete, List.filter_cons, hp] at ih ⊢
      exact ih
    · simp [jsMapDelete, List.filter_cons, hp] at ih ⊢
      exact ih

theorem lookupKey_jsMapSet_self {α β} [DecidableEq α] (m : List (α × β)) (k : α) (v : β) :
    lookupKey (jsMapSet m k v) k = some v := by
  induction m with
  | nil => simp [jsMapSet, lookupKey]
  | cons p t ih =>
    unfold jsMapSet
    by_cases hp : p.1 = k
    · rw [if_pos hp]
      unfold lookupKey
      rw [if_pos rfl]
    · rw [if_neg hp]
      unfold lookupKey
      rw [if_neg hp]
      exact ih

theorem lookupKey_jsMapDelete_ne {α β} [DecidableEq α] {m : List (α × β)} {k k2 : α}
    (hne : k ≠ k2) : lookupKey (jsMapDelete m k2) k = lookupKey m k := by
  induction m with
  | nil => rfl
  | cons p t ih =>
    unfold jsMapDelete at ih ⊢
    rw [List.filter_cons]
    by_cases hp : p.1 = k2
    · have hcond : (decide (p.1 ≠ k2)) = false := by simp [hp]
      rw [hcond]
      have hpk : p.1 ≠ k := by rw [hp]; exact fun h => hne h.symm
      conv_rhs => unfold lookupKey
      rw [if_neg hpk]
      simpa using ih
    · have hcond : (decide (p.1 ≠ k2)) = true := by simp [hp]
      rw [hcond]
      by_cases hpk : p.1 = k
      · simp only [if_true]
        unfold lookupKey
        rw [if_pos hpk, if_pos hpk]
      · simp only [if_true]
        unfold lookupKey
        rw [if_neg hpk, if_neg hpk]
        simpa using ih

theorem not_mem_keys_jsMapDelete {α β} [DecidableEq α] (m : List (α × β)) (k : α) :
    k ∉ (jsMapDelete m k).map Prod.fst := by
  rw [keys_jsMapDelete]
  intro h
  have := List.mem_filter.mp h
  simp at this

/-- C10: whenever the `dest` option is set, the write stage deletes the
destination directory recursively as its very first filesystem action,
before any directory is created or any file is written, for every input
state whatsoever. -/
theorem writeTrace_rmdir_first (dest indexjs : String) (filenameOpt : Bool) (st : PState) :
    (writeTrace dest indexjs filenameOpt st).head? =
      some (FsAction.rmdirRecursive dest) := rfl

/-- C3: evaluation of the partitioner at a file of text `aaaa;bb;cc;` with
top-level statements at offsets 0, 5 and 8 and `maxSize = 4`.  Because the
callback re-initialises its running boundary `lastSize` to 0 on every
invocation, every piece is sliced from offset 0: the emitted bodies are
`aaaa;`, `aaaa;bb;`, `cc;` — their concatenation is not the file text
(text is duplicated), the second body is 8 bytes, above `maxSize = 4`, and
the second cut happens at offset 8 even though the running-maximum rule of
the spec would require an offset of at least 5 + 4 = 9. -/
theorem partitionPieces_boundary_reset_eval :
    partitionPieces "aaaa;bb;cc;".toList [0, 5, 8] 4 =
        ["aaaa;".toList, "aaaa;bb;".toList, "cc;".toList] ∧
      (partitionPieces "aaaa;bb;cc;".toList [0, 5, 8] 4).flatten ≠ "aaaa;bb;cc;".toList ∧
      ((partitionPieces "aaaa;bb;cc;".toList [0, 5, 8] 4).getD 1 []).length = 8 := by
  decide

/-- C8: evaluation at the failing input — `x` declared in a.js, then again
in b.js.  The conflict diagnostic is emitted and the later declaration
overwrites `definition`, as the claim says; but the location the message
reports as where the name was already found is the value of
`symbols[symbol]`, which is undefined (`none`), so the diagnostic does not
identify the earlier location. -/
theorem addSymbolDefinition_conflict_eval :
    (addSymbolDefinition
        (addSymbolDefinition [] "proj/a.js" "a.js" "x").1 "proj/b.js" "b.js" "x").2 =
        some ⟨"x", "proj/b.js", none⟩ ∧
      (lookupKey
          (addSymbolDefinition
            (addSymbolDefinition [] "proj/a.js" "a.js" "x").1 "proj/b.js" "b.js" "x").1
          "x").map SymbolEntry.definition = some (some "b.js") := by
  decide

/-- C6 counterexample: a name that is both read (a plain reference
occurrence) and written (an assignment-target occurrence) in the same
partition is NOT recorded in both sets: the `some`-test routes the file
key to `assignments` only. -/
theorem recordSymbolUse_read_write_not_both :
    ¬("app.js" ∈
        (recordSymbolUse emptyEntry "app.js" [⟨false, false⟩, ⟨true, true⟩]).assignments ∧
      "app.js" ∈
        (recordSymbolUse emptyEntry "app.js" [⟨false, false⟩, ⟨true, true⟩]).references) := by
  decide

/-- C6 (amended): for every file in which a free global name has at least
one assignment-target occurrence (in particular when it is both read and
written there), the file key is recorded in the `assignments` set only,
and the `references` set is left unchanged — the classification is
exclusive, assignment wins. -/
theorem recordSymbolUse_assignment_wins (e : SymbolEntry) (destName : String)
    (nodes : List OccNode) (h : nodes.any isAssignmentExpressionNode = true) :
    destName ∈ (recordSymbolUse e destName nodes).assignments ∧
      (recordSymbolUse e destName nodes).references = e.references := by
  unfold recordSymbolUse
  rw [if_pos h]
  exact ⟨self_mem_jsSetAdd _ _, rfl⟩

/-- C6 witness: the amended claim applied to the concrete read-and-written
occurrence list. -/
theorem recordSymbolUse_assignment_wins_witness :
    "app.js" ∈
      (recordSymbolUse emptyEntry "app.js" [⟨false, false⟩, ⟨true, true⟩]).assignments :=
  (recordSymbolUse_assignment_wins emptyEntry "app.js" [⟨false, false⟩, ⟨true, true⟩]
    (by decide)).1

/-! The Declaration/Assignment Merger: entry-level lemmas. -/

theorem entryFold_cons (d f : String) (fs : List String) (e : SymbolEntry) :
    entryFold d (f :: fs) e = entryFold d fs (mergeEntry d f e) := rfl

theorem mergeEntry_definition_isSome (first second : String) (e : SymbolEntry)
    (h : e.definition.isSome = true) :
    (mergeEntry first second e).definition.isSome = true := by
  simp only [mergeEntry]
  split
  · rfl
  · exact h

theorem entryFold_definition_isSome (d : String) (fs : List String) :
    ∀ e : SymbolEntry, e.definition.isSome = true →
      (entryFold d fs e).definition.isSome = true := by
  induction fs with
  | nil => intro e h; exact h
  | cons f fs ih =>
    intro e h
    rw [entryFold_cons]
    exact ih _ (mergeEntry_definition_isSome _ _ _ h)

theorem mergeEntry_clean (first second : String) (e : SymbolEntry) (h : entryClean e) :
    entryClean (mergeEntry first second e) := by
  intro f hf
  by_cases hb : second ∈ e.assignments
  · have hdef := h second hb
    simp only [mergeEntry] at hf ⊢
    rcases mem_replaceInSet hf with rfl | ⟨hfs, hfne⟩
    · rw [if_pos hdef]
    · have := h f hfs
      rw [hdef] at this
      injection this with this
      exact absurd this.symm hfne
  · simp only [mergeEntry, replaceInSet, if_neg hb] at hf ⊢
    have hdef := h f hf
    have hne2 : e.definition ≠ some second := by
      rw [hdef]
      intro hc
      injection hc with hc
      rw [hc] at hf
      exact hb hf
    rw [if_neg hne2]
    exact hdef

theorem entryFold_clean_preserve (d : String) (fs : List String) :
    ∀ e : SymbolEntry, entryClean e → entryClean (entryFold d fs e) := by
  induction fs with
  | nil => intro e h; exact h
  | cons f fs ih =>
    intro e h
    rw [entryFold_cons]
    exact ih _ (mergeEntry_clean _ _ _ h)

theorem entryFold_clean (d : String) (fs : List String) :
    ∀ e : SymbolEntry, e.definition = some d →
      (∀ g ∈ e.assignments, g = d ∨ g ∈ fs) → (∀ f ∈ fs, f ≠ d) →
      entryClean (entryFold d fs e) := by
  induction fs with
  | nil =>
    intro e hdef hsub _ f hf
    rcases hsub f hf with rfl | h0
    · exact hdef
    · cases h0
  | cons a fs ih =>
    intro e hdef hsub hne
    rw [entryFold_cons]
    apply ih
    · have ha : a ≠ d := hne a (List.mem_cons_self a fs)
      simp only [mergeEntry]
      rw [if_neg]
      · exact hdef
      · rw [hdef]
        intro hc
        injection hc with hc
        exact ha hc.symm
    · intro g hg
      simp only [mergeEntry] at hg
      rcases mem_replaceInSet hg with rfl | ⟨hgs, hgne⟩
      · exact Or.inl rfl
      · rcases hsub g hgs with rfl | hmem
        · exact Or.inl rfl
        · rcases List.mem_cons.mp hmem with rfl | h2
          · exact absurd rfl hgne
          · exact Or.inr h2
    · intro f hf
      exact hne f (List.mem_cons_of_mem _ hf)

/-! The Merger at the state level. -/

theorem combineFileEntries_symbols (st : PState) (first second : String) :
    (combineFileEntries st first second).symbols =
      st.symbols.map (fun p => (p.1, mergeEntry first second p.2)) := rfl

theorem foldCombine_symbols (d : String) (fs : List String) :
    ∀ st : PState,
      (fs.foldl (fun st2 f => combineFileEntries st2 d f) st).symbols =
        st.symbols.map (fun p => (p.1, entryFold d fs p.2)) := by
  induction fs with
  | nil =>
    intro st
    show st.symbols = st.symbols.map (fun p => (p.1, entryFold d [] p.2))
    rw [show (fun p : String × SymbolEntry => (p.1, entryFold d [] p.2)) = fun p => p from rfl]
    rw [List.map_id']
  | cons f fs ih =>
    intro st
    rw [List.foldl_cons, ih, combineFileEntries_symbols, List.map_map]
    rfl

theorem processSymbol_symbols_eq (st : PState) (name : String) (e : SymbolEntry) (d : String)
    (hl : lookupKey st.symbols name = some e) (hd : e.definition = some d) :
    (processSymbol st name).symbols =
      st.symbols.map (fun p =>
        (p.1, entryFold d (jsDedup (e.assignments.filter (fun f => decide (f ≠ d)))) p.2)) := by
  unfold processSymbol
  split
  · rename_i heq
    rw [hl] at heq
    cases heq
  · rename_i e2 heq
    rw [hl] at heq
    injection heq with heq
    subst heq
    split
    · rename_i hd2
      rw [hd2] at hd
      cases hd
    · rename_i d2 hd2
      rw [hd2] at hd
      injection hd with hd
      subst hd
      exact foldCombine_symbols _ _ _

/-- Invariant of the `combineFiles` fold: every symbol is either still on
the worklist of names or already free of cross-file assignments. -/
theorem combineFold_clean : ∀ (names : List String) (st : PState),
    (st.symbols.map Prod.fst).Nodup →
    (∀ p ∈ st.symbols, p.2.definition.isSome = true) →
    (∀ p ∈ st.symbols, p.1 ∈ names ∨ entryClean p.2) →
    ∀ p ∈ (names.foldl processSymbol st).symbols, entryClean p.2 := by
  intro names
  induction names with
  | nil =>
    intro st _ _ hinv p hp
    rcases hinv p hp with h | h
    · cases h
    · exact h
  | cons name rest ih =>
    intro st hnd hdefs hinv
    rw [List.foldl_cons]
    rcases hlk : lookupKey st.symbols name with _ | e
    · have hps : processSymbol st name = st := by
        unfold processSymbol
        rw [hlk]
      rw [hps]
      apply ih st hnd hdefs
      intro p hp
      rcases hinv p hp with hmem | hcl
      · rcases List.mem_cons.mp hmem with h1 | h1
        · exfalso
          have hk : p.1 ∈ st.symbols.map Prod.fst := List.mem_map_of_mem Prod.fst hp
          rw [h1] at hk
          exact lookupKey_eq_none.mp hlk hk
        · exact Or.inl h1
      · exact Or.inr hcl
    · have hedef : e.definition.isSome = true := hdefs (name, e) (lookupKey_mem hlk)
      rcases hd : e.definition with _ | d
      · rw [hd] at hedef
        cases hedef
      · have hsym := processSymbol_symbols_eq st name e d hlk hd
        apply ih (processSymbol st name)
        · rw [hsym, List.map_map]
          exact hnd
        · intro p hp
          rw [hsym] at hp
          rcases List.mem_map.mp hp with ⟨q, hq, rfl⟩
          exact entryFold_definition_isSome _ _ _ (hdefs q hq)
        · intro p hp
          rw [hsym] at hp
          rcases List.mem_map.mp hp with ⟨q, hq, rfl⟩
          by_cases hqn : q.1 = name
          · right
            have hlq : lookupKey st.symbols q.1 = some q.2 := lookupKey_of_mem_nodup hnd hq
            rw [hqn, hlk] at hlq
            injection hlq with hlq
            rw [← hlq]
            apply entryFold_clean d _ e hd
            · intro g hg
              by_cases hgd : g = d
              · exact Or.inl hgd
              · refine Or.inr (mem_jsDedup.mpr (List.mem_filter.mpr ⟨hg, ?_⟩))
                simp [hgd]
            · intro f hf
              have := (List.mem_filter.mp (mem_jsDedup.mp hf)).2
              simpa using this
          · rcases hinv q hq with hmem | hcl
            · rcases List.mem_cons.mp hmem with h1 | h1
              · exact absurd h1 hqn
              · exact Or.inl h1
            · exact Or.inr (entryFold_clean_preserve _ _ _ hcl)

/-- C1: with `combine` enabled, after the Declaration/Assignment Merger
(`combineFiles`) has run on a well-formed post-purge state (unique symbol
names, every entry carrying a definition), every surviving SymbolEntry has
`assignments` minus `definition` empty: every file in `assignments` is the
defining file itself, so no surviving file assigns to a symbol defined in
a different surviving file. -/
theorem combineFiles_no_cross_assignments (st : PState)
    (hnd : (st.symbols.map Prod.fst).Nodup)
    (hdefs : ∀ p ∈ st.symbols, p.2.definition.isSome = true) :
    ∀ p ∈ (combineFiles st).symbols, ∀ f ∈ p.2.assignments, p.2.definition = some f := by
  intro p hp
  exact combineFold_clean (st.symbols.map Prod.fst) st hnd hdefs
    (fun q hq => Or.inl (List.mem_map_of_mem Prod.fst hq)) p hp

/-- C1 witness: the two-file declare/assign state; after the Merger, the
single surviving entry for `x` assigns only in its own defining file. -/
theorem combineFiles_no_cross_assignments_witness :
    (exampleCombineState.symbols.map Prod.fst).Nodup ∧
      (⟨some "a.js", ["a.js"], ([] : List String)⟩ : SymbolEntry).definition = some "a.js" :=
  ⟨by decide,
    combineFiles_no_cross_assignments exampleCombineState (by decide) (by decide)
      ("x", ⟨some "a.js", ["a.js"], []⟩) (by decide) "a.js" (by decide)⟩

/-! The file table across a merge, and the aggregator. -/

theorem fileKeys_combineFileEntries (st : PState) (first second : String)
    (hfirst : first ∈ fileKeys st) :
    fileKeys (combineFileEntries st first second) =
      (fileKeys st).filter (fun k => decide (k ≠ second)) := by
  show (jsMapDelete (jsMapSet st.files first _) second).map Prod.fst = _
  rw [keys_jsMapDelete, keys_jsMapSet_of_mem _ hfirst]
  rfl

theorem aggregatorImportLine_injective : Function.Injective aggregatorImportLine := by
  intro a b h
  unfold aggregatorImportLine at h
  have hd := congrArg String.data h
  simp only [String.data_append] at hd
  have h1 := List.append_cancel_right hd
  have h2 := List.append_cancel_left h1
  exact String.ext h2

/-- C4: the aggregator file written by `writeIndexJs` contains one import
statement per surviving file key, in the insertion order of the file
table, hence exactly one statement per surviving file when the keys are
unique (which the JS `Map` guarantees); and `combineFileEntries` keeps
the surviving key at its original position — the key list after a merge
is the old key list with only the retired key filtered out. -/
theorem writeIndexJs_aggregator (st : PState) (first second : String)
    (hnd : (fileKeys st).Nodup) (hfirst : first ∈ fileKeys st) :
    st.files.map (fun p => aggregatorImportLine p.1) =
        (fileKeys st).map aggregatorImportLine ∧
      ((fileKeys st).map aggregatorImportLine).Nodup ∧
      fileKeys (combineFileEntries st first second) =
        (fileKeys st).filter (fun k => decide (k ≠ second)) := by
  refine ⟨?_, ?_, fileKeys_combineFileEntries st first second hfirst⟩
  · simp only [fileKeys, List.map_map]
    rfl
  · exact hnd.map aggregatorImportLine_injective

/-- C4 witness: the aggregator order/merge facts applied to the concrete
three-file table, merging b.js into a.js. -/
theorem writeIndexJs_aggregator_witness :
    fileKeys (combineFileEntries exampleFilesState "a.js" "b.js") =
      (fileKeys exampleFilesState).filter (fun k => decide (k ≠ "b.js")) :=
  (writeIndexJs_aggregator exampleFilesState "a.js" "b.js" (by decide) (by decide)).2.2

/-- C7: one merge of `second` into `first` leaves the surviving file text
equal to the two old texts concatenated, removes the retired key from the
file table, maps every SymbolEntry through the `second`-to-`first`
remapping (which repoints set memberships and the definition pointer to
the surviving key), leaves no occurrence of the retired key anywhere in
the symbol table, and keeps every definition pointer aimed at a file
still present in the file table. -/
theorem combineFileEntries_merge_invariants (st : PState) (first second : String)
    (t1 t2 : String)
    (hne : first ≠ second)
    (h1 : lookupKey st.files first = some t1)
    (h2 : lookupKey st.files second = some t2)
    (hdefs : ∀ p ∈ st.symbols, ∀ dd ∈ p.2.definition.toList, dd ∈ fileKeys st) :
    lookupKey (combineFileEntries st first second).files first = some (t1 ++ t2) ∧
      second ∉ fileKeys (combineFileEntries st first second) ∧
      (∀ p ∈ st.symbols,
        (p.1, mergeEntry first second p.2) ∈ (combineFileEntries st first second).symbols) ∧
      (∀ p ∈ st.symbols,
        (second ∈ p.2.assignments → first ∈ (mergeEntry first second p.2).assignments) ∧
        (second ∈ p.2.references → first ∈ (mergeEntry first second p.2).references) ∧
        (p.2.definition = some second →
          (mergeEntry first second p.2).definition = some first)) ∧
      (∀ p ∈ (combineFileEntries st first second).symbols,
        second ∉ p.2.assignments ∧ second ∉ p.2.references ∧
          p.2.definition ≠ some second) ∧
      (∀ p ∈ (combineFileEntries st first second).symbols,
        ∀ dd ∈ p.2.definition.toList,
          dd ∈ fileKeys (combineFileEntries st first second)) := by
  have hfirstmem : first ∈ fileKeys st := mem_keys_of_lookupKey h1
  have hkeys := fileKeys_combineFileEntries st first second hfirstmem
  refine ⟨?_, ?_, ?_, ?_, ?_, ?_⟩
  · show lookupKey (jsMapDelete (jsMapSet st.files first
        ((lookupKey st.files first).getD "undefined" ++
          (lookupKey st.files second).getD "undefined")) second) first = some (t1 ++ t2)
    rw [h1, h2, Option.getD_some, Option.getD_some, lookupKey_jsMapDelete_ne hne,
      lookupKey_jsMapSet_self]
  · exact not_mem_keys_jsMapDelete _ _
  · intro p hp
    exact List.mem_map_of_mem (fun q => (q.1, mergeEntry first second q.2)) hp
  · intro p _
    refine ⟨fun h => newValue_mem_replaceInSet h, fun h => newValue_mem_replaceInSet h, ?_⟩
    intro h
    simp only [mergeEntry]
    rw [if_pos h]
  · intro p hp
    rw [combineFileEntries_symbols] at hp
    rcases List.mem_map.mp hp with ⟨q, _, rfl⟩
    refine ⟨oldValue_not_mem_replaceInSet (Ne.symm hne),
      oldValue_not_mem_replaceInSet (Ne.symm hne), ?_⟩
    simp only [mergeEntry]
    split
    · intro hc
      injection hc with hc
      exact hne hc
    · assumption
  · intro p hp
    rw [combineFileEntries_symbols] at hp
    rcases List.mem_map.mp hp with ⟨q, hq, rfl⟩
    intro dd hdd
    rw [hkeys]
    simp only [mergeEntry] at hdd
    by_cases hqs : q.2.definition = some second
    · rw [if_pos hqs] at hdd
      simp only [Option.toList_some, List.mem_singleton] at hdd
      subst hdd
      exact List.mem_filter.mpr ⟨hfirstmem, by simp [hne]⟩
    · rw [if_neg hqs] at hdd
      have hmem := hdefs q hq dd hdd
      have hddne : dd ≠ second := by
        intro hc
        apply hqs
        rcases hq2 : q.2.definition with _ | x
        · rw [hq2] at hdd
          cases hdd
        · rw [hq2] at hdd
          simp only [Option.toList_some, List.mem_singleton] at hdd
          rw [← hdd, hc]
      exact List.mem_filter.mpr ⟨hmem, by simp [hddne]⟩

/-- C7 witness: the merge invariants applied to the concrete declare/assign
state, merging b.js into a.js. -/
theorem combineFileEntries_merge_invariants_witness :
    lookupKey (combineFileEntries exampleCombineState "a.js" "b.js").files "a.js" =
      some "var x = 1;\nx = 2;\n" :=
  (combineFileEntries_merge_invariants exampleCombineState "a.js" "b.js"
    "var x = 1;\n" "x = 2;\n" (by decide) (by decide) (by decide) (by decide)).1

/-- C9 counterexample: the name registry and rename counter are module
level, so they survive into a second invocation in the same process.  With
`renameDups` enabled, running the tool twice on the single input `a.js`
emits the key `a.js` the first time but `a000.js` the second time: the
second invocation does not behave identically to the first. -/
theorem runRename_second_run_differs :
    (runRename (runRename initialRenameState true ["a.js"]).2 true ["a.js"]).1 ≠
      (runRename initialRenameState true ["a.js"]).1 := by
  decide

/-- C5: after the scanner's purge (`removeGlobalSymbols`), every surviving
SymbolEntry has its `definition` set; for a name that is never declared in
the input set (every table row for it has no definition, as for `window`),
no entry for that name survives, and no emitted file would contain an
extra import for it. -/
theorem removeGlobalSymbols_purges (st : PState) (name : String)
    (h : ∀ p ∈ st.symbols, p.1 = name → p.2.definition = none) :
    (∀ p ∈ (removeGlobalSymbols st).symbols, p.2.definition.isSome = true) ∧
      (∀ p ∈ (removeGlobalSymbols st).symbols, p.1 ≠ name) ∧
      (∀ path, name ∉ importedSymbols (removeGlobalSymbols st) path) := by
  refine ⟨?_, ?_, ?_⟩
  · intro p hp
    exact (List.mem_filter.mp hp).2
  · intro p hp heq
    have h1 := List.mem_filter.mp hp
    have h2 := h p h1.1 heq
    rw [h2] at h1
    simp at h1
  · intro path hmem
    unfold importedSymbols at hmem
    rcases List.mem_map.mp hmem with ⟨p, hp, hfst⟩
    have h1 := List.mem_filter.mp hp
    have h2 := List.mem_filter.mp h1.1
    have h3 := h p h2.1 hfst
    rw [h3] at h2
    simp at h2

/-- C5 witness: the ingestion state in which `window` is referenced but
never declared; after the purge, app.js imports nothing called `window`. -/
theorem removeGlobalSymbols_purges_witness :
    "window" ∉ importedSymbols (removeGlobalSymbols exampleScanState) "app.js" :=
  (removeGlobalSymbols_purges exampleScanState "window" (by decide)).2.2 "app.js"

/-- C2 counterexample: in the reachable three-file state
`exampleCycleState`, the sweep merges h.js into f.js while the outer
imports list of f.js is already computed; the merge makes f.js inherit
the reference to `s` (defined in g.js) and makes `q` (referenced by
g.js) belong to f.js, so after `findCircularities` the surviving files
f.js and g.js import each other — a residual two-file cycle. -/
theorem findCircularities_residual_cycle :
    "f.js" ∈ fileKeys (findCircularities exampleCycleState) ∧
      "g.js" ∈ fileKeys (findCircularities exampleCycleState) ∧
      some "g.js" ∈ importOwners (findCircularities exampleCycleState) "f.js" ∧
      some "f.js" ∈ importOwners (findCircularities exampleCycleState) "g.js" := by
  decide

/-- C2 (amended): the resolver is a single sweep whose outer import list
is computed once per outer file and never refreshed, so a merge performed
during the sweep can create a new two-file cycle that survives; when the
state contains no mutual-import pair to begin with, the sweep performs no
merge, leaves the state unchanged, and the final state contains no
two-file cycle. -/
theorem findCircularities_no_cycle_no_merge (st : PState)
    (H : ∀ k1 k2 : String,
      ¬(some k2 ∈ importOwners st k1 ∧ some k1 ∈ importOwners st k2)) :
    findCircularities st = st ∧
      ∀ k1 k2 : String,
        ¬(some k2 ∈ importOwners (findCircularities st) k1 ∧
          some k1 ∈ importOwners (findCircularities st) k2) := by
  have inner : ∀ (keys : List String) (key : String) (i j : Nat),
      fcInner keys key (importOwners st key) i j st = st := by
    intro keys key i j
    induction j with
    | zero => rfl
    | succ j ih =>
      show fcInner keys key (importOwners st key) i (j + 1) st = st
      unfold fcInner
      split
      · rfl
      · have hcond : ¬(some (keys.getD (j + 1) "") ∈ importOwners st key ∧
            some key ∈ importOwners st (keys.getD (j + 1) "")) :=
          H key (keys.getD (j + 1) "")
        show fcInner keys key (importOwners st key) i j
            (if some (keys.getD (j + 1) "") ∈ importOwners st key ∧
                some key ∈ importOwners st (keys.getD (j + 1) "")
              then combineFileEntries st key (keys.getD (j + 1) "") else st) = st
        rw [if_neg hcond]
        exact ih
  have outer : ∀ (keys : List String) (n : Nat), fcOuter keys n st = st := by
    intro keys n
    induction n with
    | zero => rfl
    | succ n ih =>
      show fcOuter keys n
          (fcInner keys (keys.getD n "") (importOwners st (keys.getD n "")) n
            (keys.length - 1) st) = st
      rw [inner]
      exact ih
  have hfix : findCircularities st = st := outer _ _
  refine ⟨hfix, ?_⟩
  rw [hfix]
  exact H

/-- C2 witness: a one-file input with no import edges satisfies the
no-initial-cycle hypothesis, and the resolver leaves it untouched. -/
theorem findCircularities_no_cycle_no_merge_witness :
    findCircularities exampleNoCycleState = exampleNoCycleState :=
  (findCircularities_no_cycle_no_merge exampleNoCycleState
    (fun _ _ h => List.not_mem_nil _ h.1)).1

/-- C9 (amended): the run is a deterministic function of the input paths,
the configuration and the module-level registry state — but that registry
(`fileNames`, `dupCount`) persists across invocations within one process,
so a first run on `a.js` emits the key `a.js` while an immediately
following second run in the same process renames it to `a000.js`. -/
theorem runRename_module_state_persistence :
    (runRename initialRenameState true ["a.js"]).1 = ["a.js"] ∧
      (runRename (runRename initialRenameState true ["a.js"]).2 true ["a.js"]).1 =
        ["a000.js"] := by
  decide

end Es6ify
